import Mathlib

/-!
Verification of `ac-version-for-fenix-beta.py`.

Strings are modelled as `List Char`.  Each Python regular expression is
translated into an executable Lean matcher that follows Python `re`
semantics for the concrete pattern at hand:
  * `re.match` anchors at position 0 only;
  * `$` (no MULTILINE flag on those patterns) accepts the end of the string
    or a position just before a single final newline;
  * an unescaped `.` matches any character except a newline;
  * `re.search` finds the leftmost position where the whole pattern matches.
`\d` is modelled as an ASCII decimal digit (`Char.isDigit`).
Exceptions are modelled with `Except String`.
-/

/-- The double-quote character (written via its code point). -/
def quoteChar : Char := Char.ofNat 34

/-! ### `validate_ac_version` — `re.match(r"^\d+\.0b\d+$", v)` -/

/-- After the final digit of `\d+` before `$`: consume the remaining digits,
then `$` accepts the end of the string or a single final newline. -/
def endDigits : List Char → Bool
  | [] => true
  | c :: r => if c.isDigit then endDigits r else c == '\n' && r.isEmpty

/-- The part `0b\d+$` of the pattern. -/
def validTail : List Char → Bool
  | a :: b :: c :: r => a == '0' && b == 'b' && c.isDigit && endDigits r
  | _ => false

/-- After the first digit of the leading `\d+`: further digits, then the
literal `.` followed by `0b\d+$`. -/
def afterD1 : List Char → Bool
  | [] => false
  | c :: r => if c.isDigit then afterD1 r else c == '.' && validTail r

/-- `re.match(r"^\d+\.0b\d+$", v)` succeeds. -/
def validMatch : List Char → Bool
  | [] => false
  | c :: r => c.isDigit && afterD1 r

def invalidFormatMsg : String := "Invalid AC version format"

/-- `validate_ac_version`: returns `v` unchanged or raises. -/
def validate_ac_version (v : List Char) : Except String (List Char) :=
  if validMatch v then Except.ok v else Except.error invalidFormatMsg

/-! ### `major_ac_version_from_version` — `validate_ac_version(v).split(".")[0]` -/

/-- Python `str.split(".")`. -/
def splitOnDot : List Char → List (List Char)
  | [] => [[]]
  | c :: r =>
    if c = '.' then [] :: splitOnDot r
    else
      match splitOnDot r with
      | h :: t => (c :: h) :: t
      | [] => [[c]]

/-- `major_ac_version_from_version`: validate, split on `.`, take component 0. -/
def major_ac_version_from_version (v : List Char) : Except String (List Char) :=
  (validate_ac_version v).map (fun s => (splitOnDot s).headD [])

/-! ### The release-branch patterns
`^releases[_/]v\d+\.0\.0$` (filter, no capture group) and
`^releases[_/]v(\d+)\.0\.0$` (parse, capture group). -/

/-- The literal `releases`. -/
def relLit : List Char := ['r', 'e', 'l', 'e', 'a', 's', 'e', 's']

/-- The part `\.0\.0$`: dot, zero, dot, zero, then end or one final newline. -/
def suffixOk : List Char → Bool
  | a :: b :: c :: d :: t =>
    a == '.' && b == '0' && c == '.' && d == '0' && (t.isEmpty || t == ['\n'])
  | _ => false

/-- After the first digit of `\d+`: further digits, then `\.0\.0$`. -/
def digitsSuffixMatch : List Char → Bool
  | [] => false
  | c :: r => if c.isDigit then digitsSuffixMatch r else suffixOk (c :: r)

/-- The part `v\d+\.0\.0$`. -/
def vMatch : List Char → Bool
  | a :: b :: r => a == 'v' && b.isDigit && digitsSuffixMatch r
  | _ => false

/-- The part `[_/]v\d+\.0\.0$`. -/
def sepMatch : List Char → Bool
  | c :: r => (c == '_' || c == '/') && vMatch r
  | [] => false

/-- `re.match(r"^releases[_/]v\d+\.0\.0$", b)` succeeds (the filter used by
`get_fenix_release_branches`). -/
def branchMatches (b : List Char) : Bool :=
  relLit.isPrefixOf b && sepMatch (b.drop 8)

/-- The decimal value of the capture group `(\d+)`, accumulated left to right,
then `\.0\.0$`. -/
def captureGo (acc : Nat) : List Char → Option Nat
  | [] => none
  | c :: r =>
    if c.isDigit then captureGo (acc * 10 + (c.toNat - 48)) r
    else if suffixOk (c :: r) then some acc else none

/-- The part `v(\d+)\.0\.0$` with the captured integer. -/
def vCapture : List Char → Option Nat
  | a :: b :: r => if a == 'v' && b.isDigit then captureGo (b.toNat - 48) r else none
  | _ => none

/-- The part `[_/]v(\d+)\.0\.0$` with the captured integer. -/
def sepCapture : List Char → Option Nat
  | c :: r => if c == '_' || c == '/' then vCapture r else none
  | [] => none

/-- `re.match(r"^releases[_/]v(\d+)\.0\.0$", b)` with `int(matches[1])`:
the capture used by `major_version_from_fenix_release_branch_name`. -/
def fenixBranchCapture (b : List Char) : Option Nat :=
  if relLit.isPrefixOf b then sepCapture (b.drop 8) else none

def branchNameMsg : String := "Unexpected release branch name"

/-- `major_version_from_fenix_release_branch_name`: the captured integer, or
an exception when the branch name does not match. -/
def major_version_from_fenix_release_branch_name (b : List Char) : Except String Nat :=
  match fenixBranchCapture b with
  | some n => Except.ok n
  | none => Except.error branchNameMsg

/-- `get_fenix_release_branches`: the branch names that pass the filter regex.
The repository collaborator is modelled by its list of branch names. -/
def get_fenix_release_branches (bs : List (List Char)) : List (List Char) :=
  bs.filter branchMatches

/-- Insertion into a descending-sorted list (model of Python
`sorted(..., reverse=True)`). -/
def insertDesc (x : Nat) : List Nat → List Nat
  | [] => [x]
  | y :: ys => if y ≤ x then x :: y :: ys else y :: insertDesc x ys

/-- `sorted(l, reverse=True)`. -/
def sortDesc (l : List Nat) : List Nat := l.foldr insertDesc []

/-- The list comprehension evaluated left to right; an exception raised by
`f` on any element propagates. -/
def mapExcept (f : List Char → Except String Nat) : List (List Char) → Except String (List Nat)
  | [] => Except.ok []
  | a :: as => do
    let b ← f a
    let bs ← mapExcept f as
    return b :: bs

/-- `get_latest_fenix_version`: parse every filtered branch name, and when
the list is non-empty return its largest element (Python falls off the end
of the function, i.e. returns `None`, otherwise). -/
def get_latest_fenix_version (bs : List (List Char)) : Except String (Option Nat) := do
  let majors ← mapExcept major_version_from_fenix_release_branch_name
    (get_fenix_release_branches bs)
  if majors.length > 0 then
    return some ((sortDesc majors).headD 0)
  else
    return none

/-! ### `match_ac_version_in_fenix` — `re.search(r'VERSION = "([^"]*)"', src)` -/

/-- The literal prefix `VERSION = "` of the search pattern. -/
def versionMarker : List Char := "VERSION = ".toList ++ [quoteChar]

/-- `([^"]*)"`: the characters up to the next double quote, or `none` when no
closing quote follows. -/
def takeToQuote : List Char → Option (List Char)
  | [] => none
  | c :: r => if c = quoteChar then some [] else (takeToQuote r).map (fun v => c :: v)

/-- Whether the whole pattern `VERSION = "([^"]*)"` matches at the start of
`s`, with its capture. -/
def capHere (s : List Char) : Option (List Char) :=
  if versionMarker.isPrefixOf s then takeToQuote (s.drop 11) else none

/-- `re.search`: try the pattern at each position, leftmost match wins. -/
def searchVersion : List Char → Option (List Char)
  | [] => none
  | c :: r =>
    match capHere (c :: r) with
    | some v => some v
    | none => searchVersion r

def markerMsg : String := "Could not match the VERSION in AndroidComponents.kt"

/-- `match_ac_version_in_fenix`: first captured value passed through
`validate_ac_version`, or the marker-not-found exception. -/
def match_ac_version_in_fenix (src : List Char) : Except String (List Char) :=
  match searchVersion src with
  | some v => validate_ac_version v
  | none => Except.error markerMsg

/-! ### `is_beta_version` — `re.compile(r'\d+.0b\d+', re.MULTILINE).match(version)`
Note the dot in the pattern is not escaped: it matches any character except a
newline. -/

/-- The part `0b\d` (one digit suffices for the final `\d+` to match). -/
def check0bd : List Char → Bool
  | a :: b :: c :: _ => a == '0' && b == 'b' && c.isDigit
  | _ => false

/-- After at least one leading digit: either the unescaped `.` consumes the
next character (anything but a newline) and `0b\d+` follows, or another digit
is consumed.  The disjunction reflects regex backtracking. -/
def afterDigits : List Char → Bool
  | [] => false
  | c :: r => (!(c == '\n') && check0bd r) || (c.isDigit && afterDigits r)

/-- `is_beta_version` as a Boolean (Python returns a truthy match or `None`). -/
def is_beta_version : List Char → Bool
  | [] => false
  | c :: r => c.isDigit && afterDigits r

/-! ### The orchestrator (`__main__`, from line 107 on)

The repository collaborator is modelled by the branch-name list, the content
of `version.txt` on the selected branch and the content of
`AndroidComponents.kt` on it.  Printed lines and the process exit are
recorded; f-string interpolations that only echo values are abbreviated to
fixed tags. -/

/-- One printed line: a `[E]` error line, a `[I]` verbose line, or the final
`::set-output name=major-ac-version::...` line. -/
inductive OutLine where
  | err : String → OutLine
  | info : String → OutLine
  | out : List Char → OutLine
deriving DecidableEq

/-- How the process ends: `sys.exit(0)` at the end, `sys.exit(1)` after a
handled failure, or an uncaught exception. -/
inductive ExitStatus where
  | success : ExitStatus
  | failure : ExitStatus
  | crashed : String → ExitStatus
deriving DecidableEq

def msgNoVersion : String := "Could not determine current A-C version on fenix"
def msgNotBeta : String := "Branch is not in beta"
def msgNoAC : String := "Could not determine current A-C version on fenix branch"

/-- The `if verbose: print(...)` lines. -/
def infoIf (vb : Bool) (tag : String) : List OutLine :=
  if vb then [OutLine.info tag] else []

/-- The action logic of `__main__` (source lines 107-136): select the latest
release branch (`if not latest_fenix_version` is Python falsiness: `None` or
`0`), check `version.txt` with `is_beta_version`, extract and validate the
A-C version, reject a falsy (empty) version, split off the major version and
print the output line. -/
def mainTrace (vb : Bool) (branches : List (List Char)) (versionTxt acSource : List Char) :
    List OutLine × ExitStatus :=
  match get_latest_fenix_version branches with
  | Except.error e => ([], ExitStatus.crashed e)
  | Except.ok none => ([OutLine.err msgNoVersion], ExitStatus.failure)
  | Except.ok (some n) =>
    if n = 0 then ([OutLine.err msgNoVersion], ExitStatus.failure)
    else
      let l1 := infoIf vb "latest-fenix-version"
      if is_beta_version versionTxt then
        let l2 := l1 ++ infoIf vb "latest-fenix-branch"
        match match_ac_version_in_fenix acSource with
        | Except.error e => (l2, ExitStatus.crashed e)
        | Except.ok v =>
          if v.isEmpty then (l2 ++ [OutLine.err msgNoAC], ExitStatus.failure)
          else
            let l3 := l2 ++ infoIf vb "current-ac-version"
            match major_ac_version_from_version v with
            | Except.error e => (l3, ExitStatus.crashed e)
            | Except.ok m =>
              (l3 ++ infoIf vb "major-ac-version" ++ [OutLine.out m], ExitStatus.success)
      else (l1 ++ [OutLine.err msgNotBeta], ExitStatus.failure)

/-! ### Specification-side descriptions (used to state the claims) -/

/-- The maximum captured major version over a branch list, `none` when no
branch name matches — the specification's description of the selector. -/
def specLatest (bs : List (List Char)) : Option Nat :=
  match bs.filterMap fenixBranchCapture with
  | [] => none
  | caps => some (caps.foldr Nat.max 0)

/-- The language the validator accepts: digits, `.0b`, digits, optionally
followed by one final newline (Python `$`). -/
def specAccepts (s : List Char) : Prop :=
  ∃ d1 d2 t, s = d1 ++ '.' :: '0' :: 'b' :: d2 ++ t ∧ d1 ≠ [] ∧ (∀ c ∈ d1, c.isDigit) ∧
    d2 ≠ [] ∧ (∀ c ∈ d2, c.isDigit) ∧ (t = [] ∨ t = ['\n'])

/-- The specification's reading of the validator: the entire string is
digits, `.0b`, digits. -/
def specFullMatch (s : List Char) : Prop :=
  ∃ d1 d2, s = d1 ++ '.' :: '0' :: 'b' :: d2 ∧ d1 ≠ [] ∧ (∀ c ∈ d1, c.isDigit) ∧
    d2 ≠ [] ∧ (∀ c ∈ d2, c.isDigit)

/-- What the beta sniff-test actually recognises at position 0: digits, any
one character other than a newline, `0b`, a digit. -/
def specBeta (s : List Char) : Prop :=
  ∃ d1 c d rest, s = d1 ++ c :: '0' :: 'b' :: d :: rest ∧ d1 ≠ [] ∧
    (∀ x ∈ d1, x.isDigit) ∧ c ≠ '\n' ∧ d.isDigit

/-- The specification's reading of the beta sniff-test: digits, a literal
dot, `0b`, a digit, starting at position 0. -/
def specBetaLiteralDot (s : List Char) : Prop :=
  ∃ d1 d rest, s = d1 ++ '.' :: '0' :: 'b' :: d :: rest ∧ d1 ≠ [] ∧
    (∀ x ∈ d1, x.isDigit) ∧ d.isDigit

/-- An occurrence of `VERSION = "<value>"` at position `i` of `src`, with the
captured value. -/
def capAt (src : List Char) (i : Nat) : Option (List Char) :=
  capHere (src.drop i)

/-! ### Helper lemmas: the branch patterns and the selector -/

theorem captureGo_isSome (r : List Char) : ∀ acc, (captureGo acc r).isSome = digitsSuffixMatch r := by
  induction r with
  | nil => intro acc; rfl
  | cons c r ih =>
    intro acc
    simp only [captureGo, digitsSuffixMatch]
    by_cases h : c.isDigit
    · simp [h, ih]
    · simp only [h, if_false]
      by_cases hs : suffixOk (c :: r)
      · simp [hs]
      · simp [hs]

theorem vCapture_isSome (r : List Char) : (vCapture r).isSome = vMatch r := by
  match r with
  | [] => rfl
  | [a] => rfl
  | a :: b :: r =>
    simp only [vCapture, vMatch]
    by_cases h : (a == 'v' && b.isDigit) = true
    · simp [h, captureGo_isSome]
    · simp [h]

theorem sepCapture_isSome (r : List Char) : (sepCapture r).isSome = sepMatch r := by
  match r with
  | [] => rfl
  | c :: r =>
    simp only [sepCapture, sepMatch]
    by_cases h : (c == '_' || c == '/') = true
    · simp [h, vCapture_isSome]
    · simp [h]

theorem fenixBranchCapture_isSome (b : List Char) :
    (fenixBranchCapture b).isSome = branchMatches b := by
  simp only [fenixBranchCapture, branchMatches]
  by_cases h : relLit.isPrefixOf b
  · simp [h, sepCapture_isSome]
  · simp [h]

theorem mapM_filtered (bs : List (List Char)) :
    mapExcept major_version_from_fenix_release_branch_name (get_fenix_release_branches bs) =
      Except.ok (bs.filterMap fenixBranchCapture) := by
  induction bs with
  | nil => rfl
  | cons b bs ih =>
    simp only [get_fenix_release_branches, List.filter_cons, List.filterMap_cons] at *
    by_cases h : branchMatches b
    · have hs : (fenixBranchCapture b).isSome := by rw [fenixBranchCapture_isSome, h]
      obtain ⟨n, hn⟩ := Option.isSome_iff_exists.mp hs
      simp only [h, if_pos, hn, mapExcept, major_version_from_fenix_release_branch_name,
        bind, Except.bind, ih]
      rfl
    · have hn : fenixBranchCapture b = none := by
        cases hc : fenixBranchCapture b with
        | none => rfl
        | some m =>
          have hb : branchMatches b = false := by simpa using h
          have := fenixBranchCapture_isSome b
          rw [hc, hb] at this
          simp at this
      simp [h, hn, ih]

theorem insertDesc_headD (x : Nat) (s : List Nat) :
    (insertDesc x s).headD 0 = Nat.max x (s.headD 0) := by
  match s with
  | [] => simp [insertDesc]
  | y :: ys =>
    simp only [insertDesc]
    by_cases h : y ≤ x
    · simp [h, Nat.max_eq_left h]
    · simp [h, Nat.max_eq_right (Nat.le_of_not_le h)]

theorem sortDesc_headD (l : List Nat) : (sortDesc l).headD 0 = l.foldr Nat.max 0 := by
  induction l with
  | nil => rfl
  | cons x l ih =>
    simp only [sortDesc, List.foldr_cons] at *
    rw [insertDesc_headD, ih]

theorem get_latest_eq (bs : List (List Char)) :
    get_latest_fenix_version bs = Except.ok (specLatest bs) := by
  simp only [get_latest_fenix_version, specLatest, bind, Except.bind, mapM_filtered]
  match h : bs.filterMap fenixBranchCapture with
  | [] => rfl
  | c :: cs =>
    simp only [List.length_cons, gt_iff_lt, Nat.succ_pos, if_true, sortDesc_headD]
    rfl

/-! ### Helper lemmas: the validator pattern -/

theorem endDigits_of (ds t : List Char) (hds : ∀ c ∈ ds, c.isDigit)
    (ht : t = [] ∨ t = ['\n']) : endDigits (ds ++ t) = true := by
  induction ds with
  | nil =>
    rcases ht with h | h <;> subst h <;> rfl
  | cons c ds ih =>
    have hc : c.isDigit := hds c (by simp)
    simp only [List.cons_append, endDigits, hc, if_true]
    exact ih (fun x hx => hds x (by simp [hx]))

theorem endDigits_elim (r : List Char) (h : endDigits r = true) :
    ∃ ds t, r = ds ++ t ∧ (∀ c ∈ ds, c.isDigit) ∧ (t = [] ∨ t = ['\n']) := by
  induction r with
  | nil => exact ⟨[], [], rfl, by simp, Or.inl rfl⟩
  | cons c r ih =>
    simp only [endDigits] at h
    by_cases hc : c.isDigit
    · rw [if_pos hc] at h
      obtain ⟨ds, t, hr, hds, ht⟩ := ih h
      refine ⟨c :: ds, t, by rw [hr]; rfl, ?_, ht⟩
      intro x hx
      rcases List.mem_cons.mp hx with h1 | h1
      · subst h1; exact hc
      · exact hds x h1
    · rw [if_neg hc] at h
      have h1 := (Bool.and_eq_true _ _).mp h
      have hcn : c = '\n' := by simpa using h1.1
      have hr : r = [] := by simpa [List.isEmpty_iff] using h1.2
      subst hcn; subst hr
      exact ⟨[], ['\n'], rfl, by simp, Or.inr rfl⟩

theorem validTail_of (d : Char) (ds t : List Char) (hd : d.isDigit)
    (hds : ∀ c ∈ ds, c.isDigit) (ht : t = [] ∨ t = ['\n']) :
    validTail ('0' :: 'b' :: d :: (ds ++ t)) = true := by
  simp only [validTail, hd, endDigits_of ds t hds ht]
  rfl

theorem validTail_elim (q : List Char) (h : validTail q = true) :
    ∃ d2 t, q = '0' :: 'b' :: d2 ++ t ∧ d2 ≠ [] ∧ (∀ c ∈ d2, c.isDigit) ∧
      (t = [] ∨ t = ['\n']) := by
  match q with
  | [] => exact absurd h (by simp [validTail])
  | [a] => exact absurd h (by simp [validTail])
  | [a, b] => exact absurd h (by simp [validTail])
  | a :: b :: c :: r =>
    simp only [validTail, Bool.and_eq_true, beq_iff_eq] at h
    obtain ⟨⟨⟨ha, hb⟩, hc⟩, hr⟩ := h
    subst ha; subst hb
    obtain ⟨ds, t, hrr, hds, ht⟩ := endDigits_elim r hr
    refine ⟨c :: ds, t, by rw [hrr]; rfl, by simp, ?_, ht⟩
    intro x hx
    rcases List.mem_cons.mp hx with h1 | h1
    · subst h1; exact hc
    · exact hds x h1

theorem afterD1_of (ds d2 t : List Char) (hds : ∀ c ∈ ds, c.isDigit) (hd2 : d2 ≠ [])
    (hall : ∀ c ∈ d2, c.isDigit) (ht : t = [] ∨ t = ['\n']) :
    afterD1 (ds ++ '.' :: '0' :: 'b' :: d2 ++ t) = true := by
  induction ds with
  | nil =>
    match d2 with
    | [] => exact absurd rfl hd2
    | d :: ds2 =>
      have hd : d.isDigit := hall d (by simp)
      have hds2 : ∀ c ∈ ds2, c.isDigit := fun x hx => hall x (by simp [hx])
      simp only [List.nil_append, afterD1]
      rw [if_neg (by decide)]
      simp [validTail_of d ds2 t hd hds2 ht]
  | cons c ds ih =>
    have hc : c.isDigit := hds c (by simp)
    simp only [List.cons_append, afterD1, hc, if_true]
    exact ih (fun x hx => hds x (by simp [hx]))

theorem afterD1_elim (r : List Char) (h : afterD1 r = true) :
    ∃ ds d2 t, r = ds ++ '.' :: '0' :: 'b' :: d2 ++ t ∧ (∀ c ∈ ds, c.isDigit) ∧
      d2 ≠ [] ∧ (∀ c ∈ d2, c.isDigit) ∧ (t = [] ∨ t = ['\n']) := by
  induction r with
  | nil => exact absurd h (by simp [afterD1])
  | cons c r ih =>
    simp only [afterD1] at h
    by_cases hc : c.isDigit
    · rw [if_pos hc] at h
      obtain ⟨ds, d2, t, hr, hds, hd2, hall, ht⟩ := ih h
      refine ⟨c :: ds, d2, t, by rw [hr]; rfl, ?_, hd2, hall, ht⟩
      intro x hx
      rcases List.mem_cons.mp hx with h1 | h1
      · subst h1; exact hc
      · exact hds x h1
    · rw [if_neg hc] at h
      have h1 := (Bool.and_eq_true _ _).mp h
      have hdot : c = '.' := by simpa using h1.1
      subst hdot
      obtain ⟨d2, t, hq, hd2, hall, ht⟩ := validTail_elim r h1.2
      exact ⟨[], d2, t, by rw [hq]; rfl, by simp, hd2, hall, ht⟩

theorem validMatch_iff (s : List Char) : validMatch s = true ↔ specAccepts s := by
  constructor
  · intro h
    match s with
    | [] => exact absurd h (by simp [validMatch])
    | c :: r =>
      simp only [validMatch, Bool.and_eq_true] at h
      obtain ⟨ds, d2, t, hr, hds, hd2, hall, ht⟩ := afterD1_elim r h.2
      refine ⟨c :: ds, d2, t, by rw [hr]; rfl, by simp, ?_, hd2, hall, ht⟩
      intro x hx
      rcases List.mem_cons.mp hx with h1 | h1
      · subst h1; exact h.1
      · exact hds x h1
  · rintro ⟨d1, d2, t, hs, hd1, hall1, hd2, hall2, ht⟩
    subst hs
    match d1 with
    | [] => exact absurd rfl hd1
    | c :: ds =>
      have hc : c.isDigit := hall1 c (by simp)
      have hds : ∀ x ∈ ds, x.isDigit := fun x hx => hall1 x (by simp [hx])
      simp only [List.cons_append, validMatch, hc, Bool.true_and]
      exact afterD1_of ds d2 t hds hd2 hall2 ht

/-! ### Helper lemmas: the beta pattern -/

theorem check0bd_elim (r : List Char) (h : check0bd r = true) :
    ∃ d rest, r = '0' :: 'b' :: d :: rest ∧ d.isDigit := by
  match r with
  | [] => exact absurd h (by simp [check0bd])
  | [a] => exact absurd h (by simp [check0bd])
  | [a, b] => exact absurd h (by simp [check0bd])
  | a :: b :: c :: rest =>
    simp only [check0bd, Bool.and_eq_true, beq_iff_eq] at h
    obtain ⟨⟨ha, hb⟩, hc⟩ := h
    subst ha; subst hb
    exact ⟨c, rest, rfl, hc⟩

theorem check0bd_of (d : Char) (rest : List Char) (hd : d.isDigit) :
    check0bd ('0' :: 'b' :: d :: rest) = true := by
  simp [check0bd, hd]

theorem afterDigits_of (ds : List Char) (c : Char) (d : Char) (rest : List Char)
    (hds : ∀ x ∈ ds, x.isDigit) (hc : c ≠ '\n') (hd : d.isDigit) :
    afterDigits (ds ++ c :: '0' :: 'b' :: d :: rest) = true := by
  induction ds with
  | nil =>
    simp only [List.nil_append, afterDigits]
    apply Bool.or_eq_true_iff.mpr
    left
    simp [hc, check0bd_of d rest hd]
  | cons x ds ih =>
    have hx : x.isDigit := hds x (by simp)
    simp only [List.cons_append, afterDigits]
    apply Bool.or_eq_true_iff.mpr
    right
    simp [hx, ih (fun y hy => hds y (by simp [hy]))]

theorem afterDigits_elim (r : List Char) (h : afterDigits r = true) :
    ∃ ds c d rest, r = ds ++ c :: '0' :: 'b' :: d :: rest ∧ (∀ x ∈ ds, x.isDigit) ∧
      c ≠ '\n' ∧ d.isDigit := by
  induction r with
  | nil => exact absurd h (by simp [afterDigits])
  | cons x r ih =>
    simp only [afterDigits, Bool.or_eq_true, Bool.and_eq_true] at h
    rcases h with ⟨hx, hcb⟩ | ⟨hx, hr⟩
    · obtain ⟨d, rest, hrr, hd⟩ := check0bd_elim r hcb
      refine ⟨[], x, d, rest, by rw [hrr]; rfl, by simp, ?_, hd⟩
      simpa using hx
    · obtain ⟨ds, c, d, rest, hrr, hds, hc, hd⟩ := ih hr
      refine ⟨x :: ds, c, d, rest, by rw [hrr]; rfl, ?_, hc, hd⟩
      intro y hy
      rcases List.mem_cons.mp hy with h1 | h1
      · subst h1; exact hx
      · exact hds y h1

theorem is_beta_iff (s : List Char) : is_beta_version s = true ↔ specBeta s := by
  constructor
  · intro h
    match s with
    | [] => exact absurd h (by simp [is_beta_version])
    | x :: r =>
      simp only [is_beta_version, Bool.and_eq_true] at h
      obtain ⟨ds, c, d, rest, hr, hds, hc, hd⟩ := afterDigits_elim r h.2
      refine ⟨x :: ds, c, d, rest, by rw [hr]; rfl, by simp, ?_, hc, hd⟩
      intro y hy
      rcases List.mem_cons.mp hy with h1 | h1
      · subst h1; exact h.1
      · exact hds y h1
  · rintro ⟨d1, c, d, rest, hs, hd1, hall, hc, hd⟩
    subst hs
    match d1 with
    | [] => exact absurd rfl hd1
    | x :: ds =>
      have hx : x.isDigit := hall x (by simp)
      have hds : ∀ y ∈ ds, y.isDigit := fun y hy => hall y (by simp [hy])
      simp only [List.cons_append, is_beta_version, hx, Bool.true_and]
      exact afterDigits_of ds c d rest hds hc hd

/-! ### Helper lemmas: splitting on the dot -/

theorem splitOnDot_ne_nil (s : List Char) : splitOnDot s ≠ [] := by
  match s with
  | [] => simp [splitOnDot]
  | c :: r =>
    simp only [splitOnDot]
    split
    · simp
    · split <;> simp

theorem splitOnDot_headD (s : List Char) :
    (splitOnDot s).headD [] = s.takeWhile (fun c => !(c == '.')) := by
  induction s with
  | nil => rfl
  | cons c r ih =>
    by_cases hc : c = '.'
    · subst hc
      simp [splitOnDot, List.takeWhile_cons]
    · simp only [splitOnDot, if_neg hc, List.takeWhile_cons]
      have hcb : (!(c == '.')) = true := by simpa using hc
      rw [hcb]
      simp only [if_true]
      match hsp : splitOnDot r with
      | [] => exact absurd hsp (splitOnDot_ne_nil r)
      | h :: t =>
        rw [hsp] at ih
        simp only [List.headD_cons] at ih
        simp [ih]

/-! ### Helper lemmas: the `VERSION = "..."` search -/

theorem capHere_nil : capHere [] = none := by decide

theorem capAt_nil (i : Nat) : capAt [] i = none := by
  simp [capAt, List.drop_nil, capHere_nil]

theorem capAt_zero (src : List Char) : capAt src 0 = capHere src := rfl

theorem capAt_succ (c : Char) (src : List Char) (i : Nat) :
    capAt (c :: src) (i + 1) = capAt src i := rfl

theorem searchVersion_eq_some (src : List Char) (v : List Char) :
    searchVersion src = some v ↔
      ∃ i, capAt src i = some v ∧ ∀ j < i, capAt src j = none := by
  induction src with
  | nil =>
    constructor
    · intro h; exact absurd h (by simp [searchVersion])
    · rintro ⟨i, h, _⟩; rw [capAt_nil] at h; cases h
  | cons c r ih =>
    cases hc : capHere (c :: r) with
    | some w =>
      have hL : searchVersion (c :: r) = some w := by
        simp [searchVersion, hc]
      constructor
      · intro h
        rw [hL] at h
        refine ⟨0, ?_, ?_⟩
        · rw [capAt_zero, hc]; exact h
        · intro j hj; exact absurd hj (Nat.not_lt_zero j)
      · rintro ⟨i, hi, hlt⟩
        match i with
        | 0 => rw [capAt_zero, hc] at hi; rw [hL]; exact hi
        | j + 1 =>
          have h0 := hlt 0 (Nat.succ_pos j)
          rw [capAt_zero, hc] at h0
          cases h0
    | none =>
      have hL : searchVersion (c :: r) = searchVersion r := by
        simp [searchVersion, hc]
      rw [hL, ih]
      constructor
      · rintro ⟨i, hi, hlt⟩
        refine ⟨i + 1, by rw [capAt_succ]; exact hi, ?_⟩
        intro j hj
        match j with
        | 0 => rw [capAt_zero]; exact hc
        | k + 1 => rw [capAt_succ]; exact hlt k (Nat.lt_of_succ_lt_succ hj)
      · rintro ⟨i, hi, hlt⟩
        match i with
        | 0 => rw [capAt_zero, hc] at hi; cases hi
        | j + 1 =>
          rw [capAt_succ] at hi
          refine ⟨j, hi, fun k hk => ?_⟩
          rw [← capAt_succ c]
          exact hlt (k + 1) (Nat.succ_lt_succ hk)

theorem searchVersion_eq_none (src : List Char) :
    searchVersion src = none ↔ ∀ i, capAt src i = none := by
  induction src with
  | nil =>
    constructor
    · intro _ i; exact capAt_nil i
    · intro _; rfl
  | cons c r ih =>
    cases hc : capHere (c :: r) with
    | some w =>
      have hL : searchVersion (c :: r) = some w := by
        simp [searchVersion, hc]
      constructor
      · intro h; rw [hL] at h; cases h
      · intro h
        have := h 0
        rw [capAt_zero, hc] at this
        cases this
    | none =>
      have hL : searchVersion (c :: r) = searchVersion r := by
        simp [searchVersion, hc]
      rw [hL, ih]
      constructor
      · intro h i
        match i with
        | 0 => rw [capAt_zero]; exact hc
        | k + 1 => rw [capAt_succ]; exact h k
      · intro h k
        rw [← capAt_succ c]
        exact h (k + 1)

/-! ### Small helpers for the claim statements -/

theorem isPrefixOf_self_append (p t : List Char) : p.isPrefixOf (p ++ t) = true := by
  induction p with
  | nil => simp [List.isPrefixOf]
  | cons c p ih => simp [List.isPrefixOf, ih]

theorem drop_relLit (x : List Char) : (relLit ++ x).drop 8 = x := by
  have h : relLit.length = 8 := rfl
  rw [← h, List.drop_left]

theorem validate_ok_elim (v w : List Char) (h : validate_ac_version v = Except.ok w) :
    w = v ∧ validMatch v = true := by
  by_cases hm : validMatch v
  · simp only [validate_ac_version, if_pos hm, Except.ok.injEq] at h
    exact ⟨h.symm, hm⟩
  · simp [validate_ac_version, hm] at h

theorem validMatch_head (v : List Char) (h : validMatch v = true) :
    ∃ c t, v = c :: t ∧ c.isDigit = true := by
  match v with
  | [] => exact absurd h (by simp [validMatch])
  | c :: t =>
    have := (Bool.and_eq_true _ _).mp (by simpa [validMatch] using h)
    exact ⟨c, t, rfl, this.1⟩

/-- The concrete build-descriptor source used by the spec's extractor example
(`foo`, newline, `VERSION = "112.0b4"`, newline, `bar`). -/
def exampleSrc : List Char :=
  "foo".toList ++ ['\n'] ++ versionMarker ++ "112.0b4".toList ++ [quoteChar] ++
    ('\n' :: "bar".toList)

/-! ### The claims -/

/-- C1: over every branch-name list, `get_latest_fenix_version` (over
`get_fenix_release_branches`) returns the maximum integer captured from the
branch names matching the release pattern and `none` when no name matches;
the `_` and `/` separators are accepted identically. -/
theorem spec_c1_latest_release_major :
    (∀ bs : List (List Char), get_latest_fenix_version bs = Except.ok (specLatest bs)) ∧
    (∀ r : List Char,
      fenixBranchCapture (relLit ++ '_' :: r) = fenixBranchCapture (relLit ++ '/' :: r)) := by
  constructor
  · exact get_latest_eq
  · intro r
    simp [fenixBranchCapture, isPrefixOf_self_append, drop_relLit, sepCapture]

/-- C9: the filter regex of `get_fenix_release_branches` and the capture
regex of `major_version_from_fenix_release_branch_name` accept exactly the
same branch names, so the parse exception is unreachable through
`get_latest_fenix_version`, which always returns a value. -/
theorem spec_c9_patterns_agree :
    (∀ b : List Char, branchMatches b = true ↔
      ∃ n, major_version_from_fenix_release_branch_name b = Except.ok n) ∧
    (∀ bs : List (List Char), ∃ r, get_latest_fenix_version bs = Except.ok r) := by
  constructor
  · intro b
    rw [← fenixBranchCapture_isSome]
    constructor
    · intro h
      obtain ⟨n, hn⟩ := Option.isSome_iff_exists.mp h
      exact ⟨n, by simp [major_version_from_fenix_release_branch_name, hn]⟩
    · rintro ⟨n, hn⟩
      simp only [major_version_from_fenix_release_branch_name] at hn
      cases hc : fenixBranchCapture b with
      | none => rw [hc] at hn; exact absurd hn (by simp)
      | some m => simp [hc]
  · intro bs
    exact ⟨specLatest bs, get_latest_eq bs⟩

/-- C2 counterexample: the dot in the beta pattern is unescaped, so
`is_beta_version` accepts `1X0b2`, which does not contain a match of
`\d+\.0b\d+` (with a literal dot) at position 0. -/
theorem spec_c2_counterexample :
    is_beta_version "1X0b2".toList = true ∧ ¬ specBetaLiteralDot "1X0b2".toList := by
  refine ⟨by decide, ?_⟩
  rintro ⟨d1, d, rest, hs, hd1, hall, hd⟩
  have h2 : '.' ∈ d1 ++ '.' :: '0' :: 'b' :: d :: rest := by simp
  rw [← hs] at h2
  exact absurd h2 (by decide)

/-- C2 amended: `is_beta_version version_text` is true iff a substring
matching digits, then ANY character other than a newline (the dot in the
pattern `\d+.0b\d+` is unescaped), then `0b`, then a digit starts at
position 0; in particular it holds for `109.0b3` + newline and fails for
`110.0.0`. -/
theorem spec_c2_beta_unescaped_dot :
    (∀ s : List Char, is_beta_version s = true ↔ specBeta s) ∧
    is_beta_version ("109.0b3".toList ++ ['\n']) = true ∧
    is_beta_version "110.0.0".toList = false :=
  ⟨is_beta_iff, by decide, by decide⟩

/-- C3 counterexample: Python `$` also matches just before a final newline,
so `validate_ac_version` accepts `109.0b1` + newline, a string that does not
fully match `^\d+\.0b\d+$` read as "the entire string is digits, `.0b`,
digits". -/
theorem spec_c3_counterexample :
    validate_ac_version ("109.0b1".toList ++ ['\n']) =
      Except.ok ("109.0b1".toList ++ ['\n']) ∧
    ¬ specFullMatch ("109.0b1".toList ++ ['\n']) := by
  refine ⟨by rfl, ?_⟩
  rintro ⟨d1, d2, hs, hd1, hall1, hd2, hall2⟩
  have hnl : '\n' ∈ "109.0b1".toList ++ ['\n'] := by simp
  rw [hs] at hnl
  rcases List.mem_append.mp hnl with h | h
  · exact absurd (hall1 _ h) (by decide)
  · simp only [List.mem_cons] at h
    rcases h with h | h | h | h
    · exact absurd h (by decide)
    · exact absurd h (by decide)
    · exact absurd h (by decide)
    · exact absurd (hall2 _ h) (by decide)

/-- C3 amended: `validate_ac_version v` returns `v` unchanged exactly when
`v` is digits, `.0b`, digits, optionally followed by a single final newline
(Python `re.match` with `$`), and raises the invalid-format exception for
every other string; `109.0b1` is accepted, `109.0` and `109.0b` raise. -/
theorem spec_c3_validate_python_dollar :
    (∀ v, validate_ac_version v = Except.ok v ↔ specAccepts v) ∧
    (∀ v, validate_ac_version v = Except.error invalidFormatMsg ↔ ¬ specAccepts v) ∧
    validate_ac_version "109.0b1".toList = Except.ok "109.0b1".toList ∧
    validate_ac_version "109.0".toList = Except.error invalidFormatMsg ∧
    validate_ac_version "109.0b".toList = Except.error invalidFormatMsg := by
  refine ⟨?_, ?_, by rfl, by rfl, by rfl⟩
  · intro v
    rw [← validMatch_iff]
    constructor
    · intro h
      by_cases hm : validMatch v
      · exact hm
      · simp [validate_ac_version, hm] at h
    · intro h
      simp [validate_ac_version, h]
  · intro v
    rw [← validMatch_iff]
    by_cases hm : validMatch v <;> simp [validate_ac_version, hm]

/-- C5: `match_ac_version_in_fenix` finds the leftmost occurrence of
`VERSION = "<value>"`, passes the captured value through
`validate_ac_version` and returns the result; when no occurrence exists it
raises the marker-not-found error.  On the example source it returns
`112.0b4`. -/
theorem spec_c5_first_version_marker :
    (∀ src i v, capAt src i = some v → (∀ j < i, capAt src j = none) →
      match_ac_version_in_fenix src = validate_ac_version v) ∧
    (∀ src, (∀ i, capAt src i = none) →
      match_ac_version_in_fenix src = Except.error markerMsg) ∧
    match_ac_version_in_fenix exampleSrc = Except.ok "112.0b4".toList := by
  refine ⟨?_, ?_, by rfl⟩
  · intro src i v hi hlt
    have hs : searchVersion src = some v := (searchVersion_eq_some src v).mpr ⟨i, hi, hlt⟩
    simp [match_ac_version_in_fenix, hs]
  · intro src h
    have hs : searchVersion src = none := (searchVersion_eq_none src).mpr h
    simp [match_ac_version_in_fenix, hs]

/-- C5 witness: the general statement applied to the example source, whose
marker occurrence is at position 4. -/
theorem spec_c5_witness :
    match_ac_version_in_fenix exampleSrc = validate_ac_version "112.0b4".toList :=
  spec_c5_first_version_marker.1 exampleSrc 4 "112.0b4".toList (by rfl) (by decide)

/-- C6: `major_ac_version_from_version v` validates `v` and returns the
prefix of `v` before the first dot, as a string; a `v` rejected by the
validator propagates the validator's exception.  `95.0b2` yields `95`. -/
theorem spec_c6_major_split :
    (∀ v, major_ac_version_from_version v =
      (validate_ac_version v).map (fun _ => v.takeWhile (fun c => !(c == '.')))) ∧
    major_ac_version_from_version "95.0b2".toList = Except.ok "95".toList := by
  refine ⟨?_, by rfl⟩
  intro v
  simp only [major_ac_version_from_version]
  cases hv : validate_ac_version v with
  | error e => rfl
  | ok s =>
    obtain ⟨hsv, _⟩ := validate_ok_elim v s hv
    subst hsv
    show Except.ok ((splitOnDot s).headD []) =
      Except.ok (s.takeWhile (fun c => !(c == '.')))
    rw [splitOnDot_headD]

/-- C7: every string accepted by the strict validator is accepted by the
beta sniff-test, while `109.0b1extra` passes the sniff-test but is rejected
by the validator: the two checks are compatible but not interchangeable. -/
theorem spec_c7_validator_implies_beta :
    (∀ v w, validate_ac_version v = Except.ok w → is_beta_version v = true) ∧
    (is_beta_version "109.0b1extra".toList = true ∧
      validate_ac_version "109.0b1extra".toList = Except.error invalidFormatMsg) := by
  refine ⟨?_, by decide, by rfl⟩
  intro v w h
  obtain ⟨_, hm⟩ := validate_ok_elim v w h
  obtain ⟨d1, d2, t, hs, hd1, hall1, hd2, hall2, ht⟩ := (validMatch_iff v).mp hm
  apply (is_beta_iff v).mpr
  match d2, hd2, hall2 with
  | d :: ds, _, hall2 =>
    refine ⟨d1, '.', d, ds ++ t, ?_, hd1, hall1, by decide, hall2 d (by simp)⟩
    rw [hs]
    simp

/-- C7 witness: the implication applied at `109.0b1`, which the validator
accepts. -/
theorem spec_c7_witness : is_beta_version "109.0b1".toList = true :=
  spec_c7_validator_implies_beta.1 "109.0b1".toList "109.0b1".toList (by rfl)

theorem match_ac_ok_elim (src w : List Char)
    (h : match_ac_version_in_fenix src = Except.ok w) : validMatch w = true := by
  simp only [match_ac_version_in_fenix] at h
  cases hs : searchVersion src with
  | none => rw [hs] at h; exact absurd h (by simp)
  | some u =>
    rw [hs] at h
    obtain ⟨hw, hm⟩ := validate_ok_elim u w h
    subst hw
    exact hm

theorem spec_c4_counterexample :
    branchMatches "releases_v0.0.0".toList = true ∧
    get_latest_fenix_version ["releases_v0.0.0".toList] = Except.ok (some 0) ∧
    mainTrace false ["releases_v0.0.0".toList] ("100.0b5".toList ++ ['\n']) exampleSrc =
      ([OutLine.err msgNoVersion], ExitStatus.failure) :=
  ⟨by decide, by rfl, by rfl⟩

theorem spec_c4_step1_failure_iff (vb : Bool) (bs : List (List Char)) (vt asrc : List Char) :
    mainTrace vb bs vt asrc = ([OutLine.err msgNoVersion], ExitStatus.failure) ↔
      (get_latest_fenix_version bs = Except.ok none ∨
        get_latest_fenix_version bs = Except.ok (some 0)) := by
  rw [show (get_latest_fenix_version bs = Except.ok none ∨
      get_latest_fenix_version bs = Except.ok (some 0)) ↔
      (specLatest bs = none ∨ specLatest bs = some 0) from by rw [get_latest_eq bs]; simp]
  simp only [mainTrace, get_latest_eq bs]
  cases hl : specLatest bs with
  | none => simp
  | some n =>
    by_cases hn : n = 0
    · subst hn; simp
    · simp only [if_neg hn, Option.some.injEq]
      cases hb : is_beta_version vt
      · cases vb <;> simp [infoIf, msgNotBeta, msgNoVersion, hn]
      · cases hm : match_ac_version_in_fenix asrc with
        | error e => cases vb <;> simp [infoIf, hn]
        | ok v =>
          by_cases hv : v = []
          · cases vb <;> simp [infoIf, hv, msgNoAC, msgNoVersion, hn]
          · cases hmm : major_ac_version_from_version v with
            | error e => cases vb <;> simp [infoIf, hv, hmm, hn]
            | ok m => cases vb <;> simp [infoIf, hv, hmm, hn]

theorem spec_c8_no_partial_output (vb : Bool) (bs : List (List Char)) (vt asrc : List Char) :
    ((mainTrace vb bs vt asrc).2 = ExitStatus.success ↔
      ∃ m, OutLine.out m ∈ (mainTrace vb bs vt asrc).1) ∧
    ((mainTrace vb bs vt asrc).2 = ExitStatus.failure →
      (∃ e, OutLine.err e ∈ (mainTrace vb bs vt asrc).1) ∧
      ∀ m, OutLine.out m ∉ (mainTrace vb bs vt asrc).1) ∧
    ((mainTrace vb bs vt asrc).2 = ExitStatus.success →
      ∃ n v m, get_latest_fenix_version bs = Except.ok (some n) ∧ n ≠ 0 ∧
        is_beta_version vt = true ∧ match_ac_version_in_fenix asrc = Except.ok v ∧
        v ≠ [] ∧ major_ac_version_from_version v = Except.ok m ∧
        (mainTrace vb bs vt asrc).1.getLast? = some (OutLine.out m)) := by
  simp only [mainTrace, get_latest_eq bs]
  cases hl : specLatest bs with
  | none => simp
  | some n =>
    by_cases hn : n = 0
    · subst hn; simp
    · simp only [if_neg hn]
      cases hb : is_beta_version vt
      · cases vb <;> simp [infoIf, hn]
      · cases hm : match_ac_version_in_fenix asrc with
        | error e => cases vb <;> simp [infoIf, hn]
        | ok v =>
          by_cases hv : v = []
          · cases vb <;> simp [infoIf, hv, hn]
          · cases hmm : major_ac_version_from_version v with
            | error e => cases vb <;> simp [infoIf, hv, hmm, hn]
            | ok m => cases vb <;> simp [infoIf, hv, hmm, hn]

theorem spec_c10_nonempty_digit :
    (∀ v w, validate_ac_version v = Except.ok w → ∃ c t, w = c :: t ∧ c.isDigit = true) ∧
    (∀ src w, match_ac_version_in_fenix src = Except.ok w → w ≠ []) ∧
    (∀ (vb : Bool) (bs : List (List Char)) (vt asrc : List Char),
      OutLine.err msgNoAC ∉ (mainTrace vb bs vt asrc).1) := by
  refine ⟨?_, ?_, ?_⟩
  · intro v w h
    obtain ⟨hw, hm⟩ := validate_ok_elim v w h
    subst hw
    exact validMatch_head w hm
  · intro src w h
    obtain ⟨c, t, hw, _⟩ := validMatch_head w (match_ac_ok_elim src w h)
    subst hw
    simp
  · intro vb bs vt asrc
    simp only [mainTrace, get_latest_eq bs]
    cases hl : specLatest bs with
    | none => simp [msgNoAC, msgNoVersion]
    | some n =>
      by_cases hn : n = 0
      · subst hn; simp [msgNoAC, msgNoVersion]
      · simp only [if_neg hn]
        cases hb : is_beta_version vt
        · cases vb <;> simp [infoIf, msgNoAC, msgNotBeta]
        · cases hm : match_ac_version_in_fenix asrc with
          | error e => cases vb <;> simp [infoIf]
          | ok v =>
            have hv : v ≠ [] := by
              obtain ⟨c, t, hw, _⟩ := validMatch_head v (match_ac_ok_elim asrc v hm)
              subst hw
              simp
            cases hmm : major_ac_version_from_version v with
            | error e => cases vb <;> simp [infoIf, hv, hmm]
            | ok m => cases vb <;> simp [infoIf, hv, hmm]

/-- C8 witness: the success conditions extracted from a concrete successful
run (branch `releases_v100.0.0`, beta `100.0b5`, A-C version `112.0b4`). -/
theorem spec_c8_witness :
    ∃ n v m, get_latest_fenix_version ["releases_v100.0.0".toList] = Except.ok (some n) ∧
      n ≠ 0 ∧ is_beta_version ("100.0b5".toList ++ ['\n']) = true ∧
      match_ac_version_in_fenix exampleSrc = Except.ok v ∧ v ≠ [] ∧
      major_ac_version_from_version v = Except.ok m ∧
      (mainTrace false ["releases_v100.0.0".toList] ("100.0b5".toList ++ ['\n'])
        exampleSrc).1.getLast? = some (OutLine.out m) :=
  (spec_c8_no_partial_output false ["releases_v100.0.0".toList]
    ("100.0b5".toList ++ ['\n']) exampleSrc).2.2 (by rfl)

/-- C10 witness: the validator's output on `109.0b1` starts with a digit. -/
theorem spec_c10_witness : ∃ c t, "109.0b1".toList = c :: t ∧ c.isDigit = true :=
  spec_c10_nonempty_digit.1 "109.0b1".toList "109.0b1".toList (by rfl)
